import Mathlib

/-
Verification of the two Bloom-filter variants of bloom-rust-chatgpt-demo:
`src/bin/main-1.rs` (fixed-size filter, one base hash seeded k ways) and
`src/bin/main-2.rs` (adaptive filter with a stored list of hash functions,
an item log, resize-on-load and a false-positive-rate estimator).

Modelling conventions:
- `Vec<bool>` / `BitVec` become `List Bool`; `usize` / `u64` become `Nat`,
  with `% 2 ^ 64` written out where the Rust code truncates to 64 bits.
- `DefaultHasher::finish` applied to an item is an opaque deterministic
  function, passed around as `hashOf : α → Nat` (its value is a `u64`,
  so it is reduced `% 2 ^ 64` where it is consumed).
- A Rust panic (modulo by zero, out-of-bounds indexing) is `none`;
  operations that can panic return `Option`.
- The adaptive variant's `add` and `resize` are mutually recursive
  (`resize` replays `add` on every logged item); the Lean model makes the
  recursion well-founded with an explicit fuel that bounds the resize
  nesting depth.  Public wrappers use fuel `size + 2`, which is shown
  sufficient on every well-formed state (lemma `add2_spec`).
- `f64` arithmetic in the estimator is idealised as real arithmetic, and
  its `println!` side effect is materialised as the list of `(k, n, m)`
  value triples it formats.
-/

namespace BloomDemo

/-- Model of `default_hash` in main-2.rs and of the hash value computed in
main-1.rs `BloomFilter::hash` before the final `% size`: the 64-bit
`DefaultHasher` digest of the item XOR-ed with the seed (both `u64`). -/
def defaultHash {α : Type} (hashOf : α → Nat) (item : α) (seed : Nat) : Nat :=
  Nat.xor (hashOf item % 2 ^ 64) (seed % 2 ^ 64)

/-! ## Fixed-size variant, main-1.rs -/

/-- State of main-1.rs `BloomFilter`: `bit_vector: Vec<bool>`, `size: usize`,
`hash_functions: usize` (the count k of seeds). -/
structure BloomFilter1 where
  bit_vector : List Bool
  size : Nat
  hash_functions : Nat
  deriving Repr, DecidableEq

/-- main-1.rs `BloomFilter::new(size, hash_functions)`: `vec![false; size]`,
with no validation of the arguments. -/
def BloomFilter1.new (size hash_functions : Nat) : BloomFilter1 :=
  ⟨List.replicate size false, size, hash_functions⟩

/-- main-1.rs `BloomFilter::hash(item, seed)`:
`(hasher.finish() ^ seed) as usize % self.size`.  The Rust `%` on `usize`
panics when `self.size = 0`, hence the `Option`. -/
def BloomFilter1.hash {α : Type} (self : BloomFilter1) (hashOf : α → Nat) (item : α)
    (seed : Nat) : Option Nat :=
  if self.size = 0 then none
  else some (defaultHash hashOf item seed % self.size)

/-- The loop body of main-1.rs `BloomFilter::add` over the remaining seed
values: `self.bit_vector[index] = true`, which panics when `index` is out of
bounds. -/
def BloomFilter1.addLoop {α : Type} (hashOf : α → Nat) (item : α) :
    List Nat → BloomFilter1 → Option BloomFilter1
  | [], self => some self
  | i :: rest, self =>
    match self.hash hashOf item i with
    | none => none
    | some idx =>
      if idx < self.bit_vector.length then
        BloomFilter1.addLoop hashOf item rest
          { self with bit_vector := self.bit_vector.set idx true }
      else none

/-- main-1.rs `BloomFilter::add(item)`: `for i in 0..self.hash_functions`,
set the bit at `self.hash(item, i as u64)`. -/
def BloomFilter1.add {α : Type} (hashOf : α → Nat) (self : BloomFilter1) (item : α) :
    Option BloomFilter1 :=
  BloomFilter1.addLoop hashOf item (List.range self.hash_functions) self

/-- The loop body of main-1.rs `BloomFilter::contains` over the remaining
seed values: early `return false` on the first unset bit. -/
def BloomFilter1.containsLoop {α : Type} (self : BloomFilter1) (hashOf : α → Nat)
    (item : α) : List Nat → Option Bool
  | [] => some true
  | i :: rest =>
    match self.hash hashOf item i with
    | none => none
    | some idx =>
      match self.bit_vector[idx]? with
      | none => none
      | some b =>
        if b then self.containsLoop hashOf item rest else some false

/-- main-1.rs `BloomFilter::contains(item)`: true iff the bit at
`self.hash(item, i as u64)` is set for every `i in 0..self.hash_functions`. -/
def BloomFilter1.contains {α : Type} (hashOf : α → Nat) (self : BloomFilter1)
    (item : α) : Option Bool :=
  self.containsLoop hashOf item (List.range self.hash_functions)

/-- A driver-level sequence of `add` calls against the fixed filter. -/
def BloomFilter1.addAll {α : Type} (hashOf : α → Nat) :
    BloomFilter1 → List α → Option BloomFilter1
  | self, [] => some self
  | self, x :: xs =>
    match BloomFilter1.add hashOf self x with
    | none => none
    | some s1 => BloomFilter1.addAll hashOf s1 xs

/-! ## Adaptive variant, main-2.rs -/

/-- State of main-2.rs `BloomFilter<T>`: `bit_vector: BitVec`, `size: usize`,
`hash_functions: Vec<Box<dyn Fn(&T) -> usize>>`, `items: Vec<T>`
(the `PhantomData` field carries no data and is dropped). -/
structure BloomFilter2 (α : Type) where
  bit_vector : List Bool
  size : Nat
  hash_functions : List (α → Nat)
  items : List α

/-- main-2.rs `BloomFilter::new(size, hash_functions)`: `bitvec![0; size]`,
empty item log, no validation of the arguments. -/
def BloomFilter2.new {α : Type} (size : Nat) (hash_functions : List (α → Nat)) :
    BloomFilter2 α :=
  ⟨List.replicate size false, size, hash_functions, []⟩

/-- main-2.rs `BloomFilter::should_resize`: `self.items.len() >= self.size`. -/
def BloomFilter2.should_resize {α : Type} (self : BloomFilter2 α) : Bool :=
  self.size ≤ self.items.length

/-- main-2.rs `BloomFilter::calculate_new_size`: `self.size * 2`. -/
def BloomFilter2.calculate_new_size {α : Type} (self : BloomFilter2 α) : Nat :=
  self.size * 2

/-- The bit-setting loop of main-2.rs `BloomFilter::add`:
`let index = hash_function(item) % self.size; self.bit_vector.set(index, true)`
for each stored hash function.  `% 0` panics, and `BitVec::set` panics out of
bounds, hence the `Option`. -/
def setBitsLoop {α : Type} (size : Nat) (item : α) :
    List (α → Nat) → List Bool → Option (List Bool)
  | [], bv => some bv
  | hf :: rest, bv =>
    if size = 0 then none
    else
      let idx := hf item % size
      if idx < bv.length then setBitsLoop size item rest (bv.set idx true)
      else none

mutual

/-- main-2.rs `BloomFilter::add(item)` with explicit fuel bounding the
resize-recursion depth: resize first when `should_resize()`, then set the
k bits of `item` modulo the (possibly new) size, then push `item` onto the
log. -/
def addFuel {α : Type} : Nat → BloomFilter2 α → α → Option (BloomFilter2 α)
  | 0, _, _ => none
  | fuel + 1, self, item =>
    match (if self.should_resize then
             resizeFuel fuel self self.calculate_new_size
           else some self) with
    | none => none
    | some s1 =>
      match setBitsLoop s1.size item s1.hash_functions s1.bit_vector with
      | none => none
      | some bv =>
        some { s1 with bit_vector := bv, items := s1.items ++ [item] }
termination_by fuel _ _ => (fuel, 0, 0)

/-- main-2.rs `BloomFilter::resize(new_size)`: clone the log, install a
zeroed bit array of `new_size` and an empty log, then re-`add` every old
item in order. -/
def resizeFuel {α : Type} : Nat → BloomFilter2 α → Nat → Option (BloomFilter2 α)
  | fuel, self, new_size =>
    replayLoop fuel
      { self with
          size := new_size
          bit_vector := List.replicate new_size false
          items := [] }
      self.items
termination_by fuel _ _ => (fuel, 2, 0)

/-- The replay loop of main-2.rs `BloomFilter::resize`:
`for item in old_items { self.add(&item) }`. -/
def replayLoop {α : Type} : Nat → BloomFilter2 α → List α → Option (BloomFilter2 α)
  | _, self, [] => some self
  | fuel, self, item :: rest =>
    match addFuel fuel self item with
    | none => none
    | some s1 => replayLoop fuel s1 rest
termination_by fuel _ l => (fuel, 1, l.length)

end

/-- main-2.rs `BloomFilter::add`, with fuel `size + 2`; on every well-formed
state this fuel is never exhausted (`addFuel_spec`), so the wrapper agrees
with the Rust method there. -/
def BloomFilter2.add {α : Type} (self : BloomFilter2 α) (item : α) :
    Option (BloomFilter2 α) :=
  addFuel (self.size + 2) self item

/-- main-2.rs `BloomFilter::resize`, with fuel `size + 2`. -/
def BloomFilter2.resize {α : Type} (self : BloomFilter2 α) (new_size : Nat) :
    Option (BloomFilter2 α) :=
  resizeFuel (self.size + 2) self new_size

/-- The loop of main-2.rs `BloomFilter::contains`:
`self.hash_functions.iter().all(|hf| self.bit_vector[hf(item) % self.size])`,
with `% 0` and out-of-bounds indexing as panics. -/
def containsLoop {α : Type} (size : Nat) (bv : List Bool) (item : α) :
    List (α → Nat) → Option Bool
  | [] => some true
  | hf :: rest =>
    if size = 0 then none
    else
      match bv[hf item % size]? with
      | none => none
      | some b => if b then containsLoop size bv item rest else some false

/-- main-2.rs `BloomFilter::contains(item)`: all k bits set. -/
def BloomFilter2.contains {α : Type} (self : BloomFilter2 α) (item : α) : Option Bool :=
  containsLoop self.size self.bit_vector item self.hash_functions

/-- A driver-level sequence of `add` calls against the adaptive filter. -/
def BloomFilter2.addAll {α : Type} : BloomFilter2 α → List α → Option (BloomFilter2 α)
  | self, [] => some self
  | self, x :: xs =>
    match BloomFilter2.add self x with
    | none => none
    | some s1 => BloomFilter2.addAll s1 xs

/-- main-2.rs `BloomFilter::calculate_false_positive_rate`:
`(1.0 - (-k * n / m).exp()).powf(k)` with `k, m, n` the `f64` casts of the
hash count, size and item count — the `f64` arithmetic idealised over `ℝ` —
paired with the `println!` effect the method performs, materialised as the
list of `(k, n, m)` triples printed. -/
noncomputable def BloomFilter2.calculate_false_positive_rate {α : Type}
    (self : BloomFilter2 α) : ℝ × List (Nat × Nat × Nat) :=
  let k : ℝ := self.hash_functions.length
  let m : ℝ := self.size
  let n : ℝ := self.items.length
  (((1 : ℝ) - Real.exp (-k * n / m)) ^ (k : ℝ),
    [(self.hash_functions.length, self.items.length, self.size)])

/-! ## Basic bit-array lemmas -/

/-- Setting a bit to `true` never unsets an already-true bit. -/
lemma getElem?_set_true_mono (l : List Bool) (i j : Nat)
    (h : l[j]? = some true) : (l.set i true)[j]? = some true := by
  rcases eq_or_ne i j with rfl | hne
  · have hj : i < l.length := by
      by_contra hc
      simp [List.getElem?_eq_none (Nat.le_of_not_lt hc)] at h
    exact List.getElem?_set_eq_of_lt true hj
  · rw [List.getElem?_set_ne hne]; exact h

/-- Every in-range slot of a fresh zeroed bit array reads `false`. -/
lemma getElem?_replicate_false (n i : Nat) (h : i < n) :
    (List.replicate n false)[i]? = some false := by
  rw [List.getElem?_eq_getElem (by simpa using h)]
  simp

/-! ## Lemmas on the fixed variant (main-1.rs) -/

/-- The add loop of the fixed filter succeeds on any in-spec state, keeps the
geometry, only sets bits, and sets the bit of every seed it processes. -/
lemma addLoop_spec {α : Type} (hashOf : α → Nat) (item : α) :
    ∀ (seeds : List Nat) (s : BloomFilter1),
      1 ≤ s.size → s.bit_vector.length = s.size →
      ∃ s', BloomFilter1.addLoop hashOf item seeds s = some s' ∧
        s'.size = s.size ∧ s'.hash_functions = s.hash_functions ∧
        s'.bit_vector.length = s.size ∧
        (∀ j : Nat, s.bit_vector[j]? = some true → s'.bit_vector[j]? = some true) ∧
        (∀ i ∈ seeds,
          s'.bit_vector[defaultHash hashOf item i % s.size]? = some true) := by
  intro seeds
  induction seeds with
  | nil =>
    intro s h1 h2
    exact ⟨s, rfl, rfl, rfl, h2, fun _ h => h, by simp⟩
  | cons i rest ih =>
    intro s h1 h2
    have hsz : s.size ≠ 0 := by omega
    have hidx : defaultHash hashOf item i % s.size < s.bit_vector.length := by
      rw [h2]; exact Nat.mod_lt _ (by omega)
    obtain ⟨s', hrun, hsize, hk, hlen, hmono, hset⟩ :=
      ih { s with bit_vector := s.bit_vector.set
                    (defaultHash hashOf item i % s.size) true }
        h1 (by simpa using h2)
    refine ⟨s', ?_, hsize, hk, hlen, ?_, ?_⟩
    · rw [BloomFilter1.addLoop, BloomFilter1.hash, if_neg hsz]
      simp only [hidx, if_true]
      exact hrun
    · intro j hj
      exact hmono j (getElem?_set_true_mono _ _ _ hj)
    · intro i' hi'
      rcases List.mem_cons.mp hi' with rfl | hmem
    -- the head seed's bit is set now and survives the rest of the loop
      · refine hmono _ ?_
        exact List.getElem?_set_eq_of_lt true hidx
      · exact hset i' hmem

/-- main-1.rs `add` succeeds on any state with positive size and a bit vector
of matching length; it preserves the geometry, only sets bits, and sets the
bit of every seed `i < hash_functions`. -/
lemma add1_spec {α : Type} (hashOf : α → Nat) (s : BloomFilter1) (item : α)
    (h1 : 1 ≤ s.size) (h2 : s.bit_vector.length = s.size) :
    ∃ s', BloomFilter1.add hashOf s item = some s' ∧
      s'.size = s.size ∧ s'.hash_functions = s.hash_functions ∧
      s'.bit_vector.length = s.size ∧
      (∀ j : Nat, s.bit_vector[j]? = some true → s'.bit_vector[j]? = some true) ∧
      (∀ i < s.hash_functions,
        s'.bit_vector[defaultHash hashOf item i % s.size]? = some true) := by
  obtain ⟨s', hrun, hsize, hk, hlen, hmono, hset⟩ :=
    addLoop_spec hashOf item (List.range s.hash_functions) s h1 h2
  exact ⟨s', hrun, hsize, hk, hlen, hmono,
    fun i hi => hset i (List.mem_range.mpr hi)⟩

/-- The contains loop of the fixed filter answers `some true` as soon as the
bit of every remaining seed is set. -/
lemma containsLoop1_all_set {α : Type} (hashOf : α → Nat) (item : α) :
    ∀ (seeds : List Nat) (s : BloomFilter1), 1 ≤ s.size →
      (∀ i ∈ seeds,
        s.bit_vector[defaultHash hashOf item i % s.size]? = some true) →
      s.containsLoop hashOf item seeds = some true := by
  intro seeds
  induction seeds with
  | nil => intro s _ _; rfl
  | cons i rest ih =>
    intro s h1 hset
    have hsz : s.size ≠ 0 := by omega
    have hmem := hset i (List.mem_cons_self i rest)
    rw [BloomFilter1.containsLoop, BloomFilter1.hash, if_neg hsz]
    simp only [hmem]
    exact ih s h1 fun i' hi' => hset i' (List.mem_cons_of_mem i hi')

/-- The contains loop of the fixed filter characterises `some true`: it holds
iff the bit of every seed in the list is set (under the length invariant). -/
lemma containsLoop1_iff {α : Type} (hashOf : α → Nat) (item : α) :
    ∀ (seeds : List Nat) (s : BloomFilter1), 1 ≤ s.size →
      s.bit_vector.length = s.size →
      (s.containsLoop hashOf item seeds = some true ↔
        ∀ i ∈ seeds,
          s.bit_vector[defaultHash hashOf item i % s.size]? = some true) := by
  intro seeds
  induction seeds with
  | nil =>
    intro s _ _
    constructor
    · intro _ i hi
      exact absurd hi (List.not_mem_nil i)
    · intro _
      rfl
  | cons i rest ih =>
    intro s h1 h2
    have hsz : s.size ≠ 0 := by omega
    have hidx : defaultHash hashOf item i % s.size < s.bit_vector.length := by
      rw [h2]; exact Nat.mod_lt _ (by omega)
    obtain ⟨b, hb⟩ : ∃ b, s.bit_vector[defaultHash hashOf item i % s.size]? = some b := by
      rw [List.getElem?_eq_getElem hidx]
      exact ⟨_, rfl⟩
    constructor
    · intro hrun
      rw [BloomFilter1.containsLoop, BloomFilter1.hash, if_neg hsz] at hrun
      simp only [hb] at hrun
      cases b with
      | false => simp at hrun
      | true =>
        simp only [if_true] at hrun
        intro i' hi'
        rcases List.mem_cons.mp hi' with rfl | hmem
        · exact hb
        · exact (ih s h1 h2).mp hrun i' hmem
    · intro hall
      exact containsLoop1_all_set hashOf item (i :: rest) s h1 hall

/-- A driver-level sequence of adds to the fixed filter succeeds on any
in-spec state, preserves the geometry and only sets bits. -/
lemma addAll1_spec {α : Type} (hashOf : α → Nat) :
    ∀ (xs : List α) (s : BloomFilter1),
      1 ≤ s.size → s.bit_vector.length = s.size →
      ∃ s', BloomFilter1.addAll hashOf s xs = some s' ∧
        s'.size = s.size ∧ s'.hash_functions = s.hash_functions ∧
        s'.bit_vector.length = s.size ∧
        (∀ j : Nat, s.bit_vector[j]? = some true → s'.bit_vector[j]? = some true) := by
  intro xs
  induction xs with
  | nil => intro s h1 h2; exact ⟨s, rfl, rfl, rfl, h2, fun _ h => h⟩
  | cons x rest ih =>
    intro s h1 h2
    obtain ⟨s1, hrun1, hsize1, hk1, hlen1, hmono1, _⟩ := add1_spec hashOf s x h1 h2
    obtain ⟨s', hrun, hsize, hk, hlen, hmono⟩ :=
      ih s1 (hsize1 ▸ h1) (hsize1 ▸ hlen1)
    refine ⟨s', ?_, hsize.trans hsize1, hk.trans hk1, hsize1 ▸ hlen, fun j hj => hmono j (hmono1 j hj)⟩
    rw [BloomFilter1.addAll, hrun1]
    exact hrun

/-! ## Lemmas on the adaptive variant (main-2.rs) -/

/-- Every stored hash function of `s` points, on `x`, at a set bit: the state
of affairs `add` establishes for `x` and `contains` tests. -/
def goodBits {α : Type} (s : BloomFilter2 α) (x : α) : Prop :=
  ∀ hf ∈ s.hash_functions, s.bit_vector[hf x % s.size]? = some true

/-- Well-formedness of an adaptive filter state: positive size, bit vector of
matching length, log no longer than the size, and every logged item fully
reflected in the bits.  `new` establishes it for positive sizes, and `add`
preserves it. -/
def WF {α : Type} (s : BloomFilter2 α) : Prop :=
  1 ≤ s.size ∧ s.bit_vector.length = s.size ∧ s.items.length ≤ s.size ∧
    ∀ y ∈ s.items, goodBits s y

instance {α : Type} (s : BloomFilter2 α) (x : α) : Decidable (goodBits s x) :=
  List.decidableBAll _ s.hash_functions

instance {α : Type} (s : BloomFilter2 α) : Decidable (WF s) :=
  instDecidableAnd

/-- A freshly constructed adaptive filter of positive size is well-formed. -/
lemma WF_new {α : Type} (m : Nat) (hfs : List (α → Nat)) (hm : 1 ≤ m) :
    WF (BloomFilter2.new m hfs) := by
  refine ⟨hm, by simp [BloomFilter2.new], by simp [BloomFilter2.new], ?_⟩
  intro y hy
  exact absurd hy (List.not_mem_nil y)

/-- The bit-setting loop of the adaptive `add` succeeds whenever the size is
positive and the bit vector has matching length; it preserves the length,
only sets bits, and sets the bit of every processed hash function. -/
lemma setBitsLoop_spec {α : Type} (size : Nat) (item : α) :
    ∀ (hfs : List (α → Nat)) (bv : List Bool), 1 ≤ size → bv.length = size →
      ∃ bv', setBitsLoop size item hfs bv = some bv' ∧ bv'.length = size ∧
        (∀ j : Nat, bv[j]? = some true → bv'[j]? = some true) ∧
        (∀ hf ∈ hfs, bv'[hf item % size]? = some true) := by
  intro hfs
  induction hfs with
  | nil =>
    intro bv h1 h2
    exact ⟨bv, rfl, h2, fun _ h => h, by simp⟩
  | cons hf rest ih =>
    intro bv h1 h2
    have hsz : size ≠ 0 := by omega
    have hidx : hf item % size < bv.length := by
      rw [h2]; exact Nat.mod_lt _ (by omega)
    obtain ⟨bv', hrun, hlen, hmono, hset⟩ :=
      ih (bv.set (hf item % size) true) h1 (by simpa using h2)
    refine ⟨bv', ?_, hlen, ?_, ?_⟩
    · rw [setBitsLoop, if_neg hsz]
      simp only [hidx, if_true]
      exact hrun
    · intro j hj
      exact hmono j (getElem?_set_true_mono _ _ _ hj)
    · intro hf' hmem
      rcases List.mem_cons.mp hmem with rfl | hmem'
      · exact hmono _ (List.getElem?_set_eq_of_lt true hidx)
      · exact hset hf' hmem'

/-- The adaptive `add` in the case where no resize triggers: one fuel unit
suffices; the new state keeps the geometry, appends the item to the log,
only sets bits, and sets every bit of the new item. -/
lemma addFuel_no_trigger {α : Type} (f : Nat) (s : BloomFilter2 α) (x : α)
    (h1 : 1 ≤ s.size) (h2 : s.bit_vector.length = s.size)
    (h3 : s.items.length < s.size) :
    ∃ s', addFuel (f + 1) s x = some s' ∧
      s'.size = s.size ∧ s'.hash_functions = s.hash_functions ∧
      s'.items = s.items ++ [x] ∧ s'.bit_vector.length = s.size ∧
      (∀ j : Nat, s.bit_vector[j]? = some true → s'.bit_vector[j]? = some true) ∧
      (∀ hf ∈ s.hash_functions, s'.bit_vector[hf x % s.size]? = some true) := by
  have htr : s.should_resize = false := by
    simp only [BloomFilter2.should_resize, decide_eq_false_iff_not]
    omega
  obtain ⟨bv', hrun, hlen, hmono, hset⟩ :=
    setBitsLoop_spec s.size x s.hash_functions s.bit_vector h1 h2
  refine ⟨{ s with bit_vector := bv', items := s.items ++ [x] }, ?_,
    rfl, rfl, rfl, hlen, hmono, hset⟩
  rw [addFuel, htr]
  simp [hrun]

/-- `goodBits` transfers along a state whose size and hash functions agree
and whose bits only grew. -/
lemma goodBits_mono {α : Type} {s s' : BloomFilter2 α} {y : α}
    (hsize : s'.size = s.size) (hk : s'.hash_functions = s.hash_functions)
    (hmono : ∀ j : Nat, s.bit_vector[j]? = some true →
      s'.bit_vector[j]? = some true)
    (h : goodBits s y) : goodBits s' y := by
  intro hf hmem
  rw [hk] at hmem
  rw [hsize]
  exact hmono _ (h hf hmem)

/-- The replay loop of `resize` succeeds, with any positive fuel, as long as
the target state has room for all replayed items on top of its log; it
appends the replayed items to the log and reflects every logged item in the
bits. -/
lemma replayLoop_spec {α : Type} (f : Nat) :
    ∀ (l : List α) (s : BloomFilter2 α),
      1 ≤ s.size → s.bit_vector.length = s.size →
      s.items.length + l.length ≤ s.size →
      (∀ y ∈ s.items, goodBits s y) →
      ∃ s', replayLoop (f + 1) s l = some s' ∧
        s'.size = s.size ∧ s'.hash_functions = s.hash_functions ∧
        s'.items = s.items ++ l ∧ s'.bit_vector.length = s.size ∧
        (∀ y ∈ s'.items, goodBits s' y) := by
  intro l
  induction l with
  | nil =>
    intro s h1 h2 h3 h4
    exact ⟨s, by rw [replayLoop], rfl, rfl, by simp, h2, h4⟩
  | cons x rest ih =>
    intro s h1 h2 h3 h4
    obtain ⟨s1, hrun1, hsize1, hk1, hitems1, hlen1, hmono1, hset1⟩ :=
      addFuel_no_trigger f s x h1 h2 (by simp at h3; omega)
    have hgood1 : ∀ y ∈ s1.items, goodBits s1 y := by
      intro y hy
      rw [hitems1] at hy
      rcases List.mem_append.mp hy with hy | hy
      · exact goodBits_mono hsize1 hk1 hmono1 (h4 y hy)
      · rcases List.mem_singleton.mp hy with rfl
        intro hf hmem
        rw [hsize1]
        exact hset1 hf (hk1 ▸ hmem)
    obtain ⟨s', hrun, hsize, hk, hitems, hlen, hgood⟩ :=
      ih s1 (hsize1 ▸ h1) (hsize1 ▸ hlen1)
        (by rw [hitems1, hsize1]; simp at h3 ⊢; omega) hgood1
    refine ⟨s', ?_, hsize.trans hsize1, hk.trans hk1, ?_,
      hsize1 ▸ hlen, hgood⟩
    · rw [replayLoop, hrun1]
      exact hrun
    · rw [hitems, hitems1]
      simp

/-- main-2.rs `resize` at any positive target size with room for the log:
it succeeds, installs the new size, leaves the item log equal to the old
one, and reflects every logged item in the fresh bits. -/
lemma resizeFuel_spec {α : Type} (f : Nat) (s : BloomFilter2 α)
    (new_size : Nat) (h1 : 1 ≤ new_size)
    (h2 : s.items.length ≤ new_size) :
    ∃ s', resizeFuel (f + 1) s new_size = some s' ∧
      s'.size = new_size ∧ s'.hash_functions = s.hash_functions ∧
      s'.items = s.items ∧ s'.bit_vector.length = new_size ∧
      (∀ y ∈ s'.items, goodBits s' y) := by
  obtain ⟨s', hrun, hsize, hk, hitems, hlen, hgood⟩ :=
    replayLoop_spec f s.items
      { s with
          size := new_size
          bit_vector := List.replicate new_size false
          items := [] }
      h1 (by simp) (by simpa using h2) (by simp)
  refine ⟨s', ?_, hsize, hk, by simpa using hitems, hlen, hgood⟩
  rw [resizeFuel]
  exact hrun

/-- Master specification of main-2.rs `add` on a well-formed state: it never
panics and never exhausts its fuel; the result is again well-formed, the item
is appended to the log, the size doubles exactly when the load trigger held
(and is unchanged otherwise), and every bit of the new item is set modulo the
current (possibly new) size. -/
lemma add2_spec {α : Type} (s : BloomFilter2 α) (x : α) (hWF : WF s) :
    ∃ s', BloomFilter2.add s x = some s' ∧ WF s' ∧
      s'.hash_functions = s.hash_functions ∧
      s'.items = s.items ++ [x] ∧
      s'.size = (if s.should_resize then s.calculate_new_size else s.size) ∧
      goodBits s' x := by
  obtain ⟨h1, h2, h3, h4⟩ := hWF
  rw [BloomFilter2.add]
  by_cases htr : s.should_resize = true
  · -- the load trigger holds: resize to `2 * size` first, then fold in `x`
    have hlen : s.items.length = s.size :=
      Nat.le_antisymm h3 (by simpa [BloomFilter2.should_resize] using htr)
    obtain ⟨s1, hrun1, hsize1, hk1, hitems1, hlen1, hgood1⟩ :=
      resizeFuel_spec s.size s s.calculate_new_size
        (by simp only [BloomFilter2.calculate_new_size]; omega)
        (by simp only [BloomFilter2.calculate_new_size]; omega)
    obtain ⟨bv', hrun2, hlen2, hmono2, hset2⟩ :=
      setBitsLoop_spec s1.size x s1.hash_functions s1.bit_vector
        (by rw [hsize1]; simp only [BloomFilter2.calculate_new_size]; omega)
        (hlen1.trans hsize1.symm)
    refine ⟨{ s1 with bit_vector := bv', items := s1.items ++ [x] }, ?_, ?_, ?_, ?_, ?_, ?_⟩
    · show addFuel (s.size + 1 + 1) s x = _
      rw [addFuel, htr]
      simp [hrun1, hrun2]
    · refine ⟨?_, ?_, ?_, ?_⟩
      · show 1 ≤ s1.size
        rw [hsize1]; simp only [BloomFilter2.calculate_new_size]; omega
      · show bv'.length = s1.size
        rw [hlen2, hsize1]
      · show (s1.items ++ [x]).length ≤ s1.size
        rw [hitems1, hsize1]
        simp only [List.length_append, List.length_singleton,
          BloomFilter2.calculate_new_size]
        omega
      · intro y hy
        rcases List.mem_append.mp hy with hy | hy
        · intro hf hmem
          exact hmono2 _ (hgood1 y hy hf hmem)
        · rcases List.mem_singleton.mp hy with rfl
          intro hf hmem
          exact hset2 hf hmem
    · exact hk1
    · rw [hitems1]
    · simp only [htr, if_true]
      exact hsize1
    · intro hf hmem
      exact hset2 hf hmem
  · -- no trigger: one plain bit-setting pass and a log append
    have htr' : s.should_resize = false := by
      simpa using htr
    have hlt : s.items.length < s.size := by
      have := htr'
      simp only [BloomFilter2.should_resize, decide_eq_false_iff_not] at this
      omega
    obtain ⟨s', hrun, hsize, hk, hitems, hlen, hmono, hset⟩ :=
      addFuel_no_trigger (s.size + 1) s x h1 h2 hlt
    refine ⟨s', hrun, ⟨?_, ?_, ?_, ?_⟩, hk, hitems, ?_, ?_⟩
    · omega
    · rw [hlen, hsize]
    · rw [hitems, hsize]
      simp only [List.length_append, List.length_singleton]
      omega
    · intro y hy
      rw [hitems] at hy
      rcases List.mem_append.mp hy with hy | hy
      · exact goodBits_mono hsize hk hmono (h4 y hy)
      · rcases List.mem_singleton.mp hy with rfl
        intro hf hmem
        rw [hsize]
        exact hset hf (hk ▸ hmem)
    · rw [htr', if_neg (by simp)]
      exact hsize
    · intro hf hmem
      rw [hsize]
      exact hset hf (hk ▸ hmem)

/-- The contains loop of the adaptive filter answers `some true` as soon as
the bit of every remaining hash function is set. -/
lemma containsLoop2_all_set {α : Type} (size : Nat) (bv : List Bool) (x : α) :
    ∀ hfs : List (α → Nat), 1 ≤ size →
      (∀ hf ∈ hfs, bv[hf x % size]? = some true) →
      containsLoop size bv x hfs = some true := by
  intro hfs
  induction hfs with
  | nil => intro _ _; rfl
  | cons hf rest ih =>
    intro h1 hset
    have hsz : size ≠ 0 := by omega
    have hmem := hset hf (List.mem_cons_self hf rest)
    rw [containsLoop, if_neg hsz]
    simp only [hmem]
    exact ih h1 fun hf' hmem' => hset hf' (List.mem_cons_of_mem hf hmem')

/-- On a positive-size state, `contains` answers `some true` for any item
whose bits are all set — in particular for every logged item of a
well-formed state. -/
lemma contains2_of_goodBits {α : Type} (s : BloomFilter2 α) (x : α)
    (h1 : 1 ≤ s.size) (h : goodBits s x) :
    BloomFilter2.contains s x = some true :=
  containsLoop2_all_set s.size s.bit_vector x s.hash_functions h1 h

/-- A driver-level sequence of adds to the adaptive filter succeeds on any
well-formed state, preserves well-formedness and the hash functions, appends
the items to the log in order, and never shrinks the size. -/
lemma addAll2_spec {α : Type} :
    ∀ (xs : List α) (s : BloomFilter2 α), WF s →
      ∃ s', BloomFilter2.addAll s xs = some s' ∧ WF s' ∧
        s'.hash_functions = s.hash_functions ∧
        s'.items = s.items ++ xs ∧ s.size ≤ s'.size := by
  intro xs
  induction xs with
  | nil =>
    intro s hWF
    exact ⟨s, rfl, hWF, rfl, by simp, le_refl _⟩
  | cons x rest ih =>
    intro s hWF
    obtain ⟨s1, hrun1, hWF1, hk1, hitems1, hsize1, _⟩ := add2_spec s x hWF
    obtain ⟨s', hrun, hWF', hk, hitems, hsize⟩ := ih s1 hWF1
    refine ⟨s', ?_, hWF', hk.trans hk1, ?_, ?_⟩
    · rw [BloomFilter2.addAll, hrun1]
      exact hrun
    · rw [hitems, hitems1]
      simp
    · refine le_trans ?_ hsize
      rw [hsize1]
      split
      · simp only [BloomFilter2.calculate_new_size]
        omega
      · exact le_refl _

/-! ## Totality, fresh-filter and zero-size lemmas -/

/-- The fixed filter's contains loop never panics on an in-spec state. -/
lemma containsLoop1_total {α : Type} (hashOf : α → Nat) (x : α) :
    ∀ (seeds : List Nat) (s : BloomFilter1),
      1 ≤ s.size → s.bit_vector.length = s.size →
      ∃ b, s.containsLoop hashOf x seeds = some b := by
  intro seeds
  induction seeds with
  | nil => intro s _ _; exact ⟨true, rfl⟩
  | cons i rest ih =>
    intro s h1 h2
    have hsz : s.size ≠ 0 := by omega
    have hidx : defaultHash hashOf x i % s.size < s.bit_vector.length := by
      rw [h2]; exact Nat.mod_lt _ (by omega)
    obtain ⟨b0, hb0⟩ : ∃ b0, s.bit_vector[defaultHash hashOf x i % s.size]? = some b0 := by
      rw [List.getElem?_eq_getElem hidx]
      exact ⟨_, rfl⟩
    rw [BloomFilter1.containsLoop, BloomFilter1.hash, if_neg hsz]
    simp only [hb0]
    cases b0 with
    | false => exact ⟨false, by simp⟩
    | true => simpa using ih s h1 h2

/-- The adaptive filter's contains loop never panics on an in-spec state. -/
lemma containsLoop2_total {α : Type} (x : α) :
    ∀ (hfs : List (α → Nat)) (size : Nat) (bv : List Bool),
      1 ≤ size → bv.length = size →
      ∃ b, containsLoop size bv x hfs = some b := by
  intro hfs
  induction hfs with
  | nil => intro size bv _ _; exact ⟨true, rfl⟩
  | cons hf rest ih =>
    intro size bv h1 h2
    have hsz : size ≠ 0 := by omega
    have hidx : hf x % size < bv.length := by
      rw [h2]; exact Nat.mod_lt _ (by omega)
    obtain ⟨b0, hb0⟩ : ∃ b0, bv[hf x % size]? = some b0 := by
      rw [List.getElem?_eq_getElem hidx]
      exact ⟨_, rfl⟩
    rw [containsLoop, if_neg hsz]
    simp only [hb0]
    cases b0 with
    | false => exact ⟨false, by simp⟩
    | true => simpa using ih size bv h1 h2

/-- On a fresh fixed filter of positive size, the contains loop answers
`some false` for any nonempty seed list: the very first probed bit is
`false`. -/
lemma containsLoop1_fresh {α : Type} (hashOf : α → Nat) (x : α)
    (m k i : Nat) (rest : List Nat) (hm : 1 ≤ m) :
    (BloomFilter1.new m k).containsLoop hashOf x (i :: rest) = some false := by
  have hsz : (BloomFilter1.new m k).size ≠ 0 := by
    simp only [BloomFilter1.new]; omega
  have hb : (BloomFilter1.new m k).bit_vector[defaultHash hashOf x i %
      (BloomFilter1.new m k).size]? = some false := by
    simp only [BloomFilter1.new]
    exact getElem?_replicate_false m _ (Nat.mod_lt _ (by omega))
  rw [BloomFilter1.containsLoop, BloomFilter1.hash, if_neg hsz]
  simp only [hb]
  simp

/-- On a fresh zeroed bit array of positive size, the adaptive contains loop
answers `some false` for any nonempty hash-function list. -/
lemma containsLoop2_fresh {α : Type} (x : α) (m : Nat)
    (hf : α → Nat) (rest : List (α → Nat)) (hm : 1 ≤ m) :
    containsLoop m (List.replicate m false) x (hf :: rest) = some false := by
  have hsz : m ≠ 0 := by omega
  have hb : (List.replicate m false)[hf x % m]? = some false :=
    getElem?_replicate_false m _ (Nat.mod_lt _ (by omega))
  rw [containsLoop, if_neg hsz]
  simp only [hb]
  simp

/-- With size zero, the fixed filter's add loop panics on its first seed. -/
lemma addLoop1_size_zero {α : Type} (hashOf : α → Nat) (x : α)
    (s : BloomFilter1) (i : Nat) (rest : List Nat) (h0 : s.size = 0) :
    BloomFilter1.addLoop hashOf x (i :: rest) s = none := by
  rw [BloomFilter1.addLoop, BloomFilter1.hash, if_pos h0]

/-- With size zero, the fixed filter's contains loop panics on its first
seed. -/
lemma containsLoop1_size_zero {α : Type} (hashOf : α → Nat) (x : α)
    (s : BloomFilter1) (i : Nat) (rest : List Nat) (h0 : s.size = 0) :
    s.containsLoop hashOf x (i :: rest) = none := by
  rw [BloomFilter1.containsLoop, BloomFilter1.hash, if_pos h0]

/-- With size zero, the adaptive filter's add panics: the load trigger always
holds, the resize keeps the size at `0 * 2 = 0`, and the first bit-setting
division by the size then fails. -/
lemma add2_size_zero {α : Type} (hf : α → Nat) (rest : List (α → Nat))
    (x : α) : BloomFilter2.add (BloomFilter2.new 0 (hf :: rest)) x = none := by
  show addFuel (1 + 1) (BloomFilter2.new 0 (hf :: rest)) x = none
  rw [addFuel]
  have htr : (BloomFilter2.new 0 (hf :: rest)).should_resize = true := rfl
  rw [htr, if_pos rfl, resizeFuel]
  have hitems : (BloomFilter2.new 0 (hf :: rest)).items = [] := rfl
  rw [hitems, replayLoop]
  rfl

/-! ## Bridging the two variants -/

/-- Step-for-step correspondence of the two contains loops: the fixed
filter's seeded loop over `seeds` coincides with the adaptive loop over the
functions `fun y => defaultHash hashOf y i` for `i ∈ seeds`, on identical
bits and size — including the panic cases. -/
lemma containsLoop_bridge {α : Type} (hashOf : α → Nat) (x : α)
    (bv : List Bool) (m k : Nat) :
    ∀ seeds : List Nat,
      BloomFilter1.containsLoop ⟨bv, m, k⟩ hashOf x seeds =
        containsLoop m bv x
          (seeds.map (fun i => fun y => defaultHash hashOf y i)) := by
  intro seeds
  induction seeds with
  | nil => rfl
  | cons i rest ih =>
    by_cases hm : m = 0
    · rw [List.map_cons, BloomFilter1.containsLoop, BloomFilter1.hash,
        containsLoop, if_pos hm, if_pos hm]
    · rw [List.map_cons, BloomFilter1.containsLoop, BloomFilter1.hash,
        containsLoop, if_neg hm, if_neg hm]
      cases hb : bv[defaultHash hashOf x i % m]? with
      | none => simp [hb]
      | some b => cases b <;> simp [hb, ih]

/-! ## Claim theorems -/

/-- C1: for every item x and every filter (fixed or adaptive) constructed
with size > 0 and at least one hash function, once add(x) returns,
contains(x) returns true, and it continues to return true after any further
sequence of add calls and (for the adaptive variant) any resizes those adds
trigger.  Stated strongly: every add in the scenario returns, and the final
contains answers `some true`. -/
theorem claim_C1_no_false_negatives :
    (∀ (α : Type) (hashOf : α → Nat) (m k : Nat) (ys zs : List α) (x : α),
      1 ≤ m → 1 ≤ k →
      ∃ f1 f2 f3,
        BloomFilter1.addAll hashOf (BloomFilter1.new m k) ys = some f1 ∧
        BloomFilter1.add hashOf f1 x = some f2 ∧
        BloomFilter1.addAll hashOf f2 zs = some f3 ∧
        BloomFilter1.contains hashOf f3 x = some true)
    ∧ (∀ (α : Type) (m : Nat) (hfs : List (α → Nat)) (ys zs : List α) (x : α),
      1 ≤ m → hfs ≠ [] →
      ∃ g1 g2 g3,
        BloomFilter2.addAll (BloomFilter2.new m hfs) ys = some g1 ∧
        BloomFilter2.add g1 x = some g2 ∧
        BloomFilter2.addAll g2 zs = some g3 ∧
        BloomFilter2.contains g3 x = some true) := by
  constructor
  · intro α hashOf m k ys zs x hm _
    have hsz0 : (BloomFilter1.new m k).size = m := rfl
    have hlen0 : (BloomFilter1.new m k).bit_vector.length =
        (BloomFilter1.new m k).size := by
      simp [BloomFilter1.new]
    obtain ⟨f1, hr1, hs1, hhf1, hl1, _⟩ :=
      addAll1_spec hashOf ys (BloomFilter1.new m k) (by rw [hsz0]; exact hm) hlen0
    obtain ⟨f2, hr2, hs2, hhf2, hl2, _, hset2⟩ :=
      add1_spec hashOf f1 x (by rw [hs1, hsz0]; exact hm) (by rw [hs1]; exact hl1)
    obtain ⟨f3, hr3, hs3, hhf3, hl3, hmono3⟩ :=
      addAll1_spec hashOf zs f2 (by rw [hs2, hs1, hsz0]; exact hm)
        (by rw [hs2]; exact hl2)
    refine ⟨f1, f2, f3, hr1, hr2, hr3, ?_⟩
    have hsz2 : f2.size = f1.size := hs2
    have hk3 : f3.hash_functions = f1.hash_functions := hhf3.trans hhf2
    rw [BloomFilter1.contains]
    refine containsLoop1_all_set hashOf x _ f3
      (by rw [hs3, hs2, hs1, hsz0]; exact hm) ?_
    intro i hi
    have hik : i < f1.hash_functions := by
      rw [← hk3]
      exact List.mem_range.mp hi
    have hbit2 := hset2 i hik
    have : f3.bit_vector[defaultHash hashOf x i % f1.size]? = some true :=
      hmono3 _ hbit2
    rw [hs3, hsz2]
    exact this
  · intro α m hfs ys zs x hm _
    obtain ⟨g1, hr1, hWF1, _, _, _⟩ :=
      addAll2_spec ys (BloomFilter2.new m hfs) (WF_new m hfs hm)
    obtain ⟨g2, hr2, hWF2, _, hi2, _, _⟩ := add2_spec g1 x hWF1
    obtain ⟨g3, hr3, hWF3, _, hi3, _⟩ := addAll2_spec zs g2 hWF2
    refine ⟨g1, g2, g3, hr1, hr2, hr3, ?_⟩
    have hxmem : x ∈ g3.items := by
      rw [hi3, hi2]
      simp
    exact contains2_of_goodBits g3 x hWF3.1 (hWF3.2.2.2 x hxmem)

/-- Witness for C1 at m = 2, k = 1, prior adds [0], item 5, later adds [7]. -/
theorem claim_C1_no_false_negatives_witness :
    1 ≤ 2 ∧ 1 ≤ 1 ∧ ([fun n : Nat => n] ≠ ([] : List (Nat → Nat))) ∧
    (∃ f1 f2 f3,
      BloomFilter1.addAll (fun n : Nat => n) (BloomFilter1.new 2 1) [0] = some f1 ∧
      BloomFilter1.add (fun n : Nat => n) f1 5 = some f2 ∧
      BloomFilter1.addAll (fun n : Nat => n) f2 [7] = some f3 ∧
      BloomFilter1.contains (fun n : Nat => n) f3 5 = some true) ∧
    (∃ g1 g2 g3,
      BloomFilter2.addAll (BloomFilter2.new 2 [fun n : Nat => n]) [0] = some g1 ∧
      BloomFilter2.add g1 5 = some g2 ∧
      BloomFilter2.addAll g2 [7] = some g3 ∧
      BloomFilter2.contains g3 5 = some true) :=
  ⟨by decide, by decide, by simp,
    claim_C1_no_false_negatives.1 Nat (fun n => n) 2 1 [0] [7] 5 (by decide) (by decide),
    claim_C1_no_false_negatives.2 Nat 2 [fun n => n] [0] [7] 5 (by decide) (by simp)⟩

/-- C2 (code evaluation at the failing inputs): construction with size 0 or
hash count 0 does NOT fail fast in either variant.  `new(0, 3)` returns a
size-0 filter whose first `add` then panics (division by zero at hashing
time, not a construction error); `new(10, 0)` returns a filter whose
`contains` is constantly true; the adaptive `new(0, [h])` likewise returns a
value and panics only on first use. -/
theorem claim_C2_construction_never_fails :
    BloomFilter1.new 0 3 = ⟨List.replicate 0 false, 0, 3⟩ ∧
    BloomFilter1.add (fun n : Nat => n) (BloomFilter1.new 0 3) 0 = none ∧
    BloomFilter1.contains (fun n : Nat => n) (BloomFilter1.new 10 0) 0 = some true ∧
    (BloomFilter2.new 0 [fun n : Nat => n]).size = 0 ∧
    BloomFilter2.add (BloomFilter2.new 0 [fun n : Nat => n]) 0 = none ∧
    BloomFilter2.contains (BloomFilter2.new 10 ([] : List (Nat → Nat))) 0 = some true :=
  ⟨rfl, rfl, rfl, rfl, add2_size_zero (fun n => n) [] 0, rfl⟩

/-- C3 counterexample: a freshly constructed fixed filter with size 5 ≥ 1
but hash count 0 answers `contains` with `some true` for item 0, not
`some false` as the claim (quantified over every fresh filter with m ≥ 1)
requires. -/
theorem claim_C3_counterexample :
    1 ≤ 5 ∧
    BloomFilter1.contains (fun n : Nat => n) (BloomFilter1.new 5 0) 0 = some true ∧
    BloomFilter1.contains (fun n : Nat => n) (BloomFilter1.new 5 0) 0 ≠ some false :=
  ⟨by decide, rfl, by decide⟩

/-- C3 as amended: a freshly constructed filter with size m ≥ 1 AND at least
one hash function reports `contains(x) = false` for every item x, in both
variants. -/
theorem claim_C3_empty_filter_contains_false :
    (∀ (α : Type) (hashOf : α → Nat) (m k : Nat) (x : α), 1 ≤ m → 1 ≤ k →
      BloomFilter1.contains hashOf (BloomFilter1.new m k) x = some false)
    ∧ (∀ (α : Type) (m : Nat) (hfs : List (α → Nat)) (x : α), 1 ≤ m → hfs ≠ [] →
      BloomFilter2.contains (BloomFilter2.new m hfs) x = some false) := by
  constructor
  · intro α hashOf m k x hm hk
    obtain ⟨j, rfl⟩ : ∃ j, k = j + 1 := ⟨k - 1, by omega⟩
    rw [BloomFilter1.contains]
    have hrg : List.range ((BloomFilter1.new m (j + 1)).hash_functions) =
        0 :: (List.range j).map Nat.succ := by
      show List.range (j + 1) = _
      rw [List.range_succ_eq_map]
    rw [hrg]
    exact containsLoop1_fresh hashOf x m (j + 1) 0 _ hm
  · intro α m hfs x hm hne
    obtain ⟨hf, rest, rfl⟩ := List.exists_cons_of_ne_nil hne
    show containsLoop m (List.replicate m false) x (hf :: rest) = some false
    exact containsLoop2_fresh x m hf rest hm

/-- Witness for the amended C3 at m = 3, k = 2 and item 7. -/
theorem claim_C3_empty_filter_contains_false_witness :
    1 ≤ 3 ∧ 1 ≤ 2 ∧ ([fun n : Nat => n] ≠ ([] : List (Nat → Nat))) ∧
    BloomFilter1.contains (fun n : Nat => n) (BloomFilter1.new 3 2) 7 = some false ∧
    BloomFilter2.contains (BloomFilter2.new 3 [fun n : Nat => n]) 7 = some false :=
  ⟨by decide, by decide, by simp,
    claim_C3_empty_filter_contains_false.1 Nat (fun n => n) 3 2 7 (by decide) (by decide),
    claim_C3_empty_filter_contains_false.2 Nat 3 [fun n => n] 7 (by decide) (by simp)⟩

/-- C4: on any well-formed adaptive filter, the resize performed with the
growth policy's target (`calculate_new_size`, the only target `add` ever
requests) succeeds, strictly increases the stored size (it doubles), and
leaves the inserted-item log exactly as it was. -/
theorem claim_C4_resize_grows_and_preserves_log :
    ∀ (α : Type) (s : BloomFilter2 α), WF s →
      ∃ s', BloomFilter2.resize s s.calculate_new_size = some s' ∧
        s.size < s'.size ∧ s'.size = s.size * 2 ∧ s'.items = s.items := by
  intro α s hWF
  obtain ⟨h1, _, h3, _⟩ := hWF
  obtain ⟨s', hrun, hsize, _, hitems, _, _⟩ :=
    resizeFuel_spec (s.size + 1) s s.calculate_new_size
      (by simp only [BloomFilter2.calculate_new_size]; omega)
      (by simp only [BloomFilter2.calculate_new_size]; omega)
  refine ⟨s', hrun, ?_, hsize, hitems⟩
  rw [hsize]
  simp only [BloomFilter2.calculate_new_size]
  omega

/-- Witness for C4 on a fresh well-formed filter of size 2. -/
theorem claim_C4_resize_grows_and_preserves_log_witness :
    WF (BloomFilter2.new 2 [fun n : Nat => n]) ∧
    ∃ s', BloomFilter2.resize (BloomFilter2.new 2 [fun n : Nat => n])
        ((BloomFilter2.new 2 [fun n : Nat => n]).calculate_new_size) = some s' ∧
      (BloomFilter2.new 2 [fun n : Nat => n]).size < s'.size ∧
      s'.size = (BloomFilter2.new 2 [fun n : Nat => n]).size * 2 ∧
      s'.items = (BloomFilter2.new 2 [fun n : Nat => n]).items :=
  ⟨by decide,
    claim_C4_resize_grows_and_preserves_log Nat
      (BloomFilter2.new 2 [fun n : Nat => n]) (by decide)⟩

/-- C5 (code evaluation at the failing input): a resize request that shrinks
the filter is NOT rejected — `resize(3)` on a size-10 adaptive filter
succeeds and installs size 3 (with a fresh 3-slot bit array), silently
applying the shrink. -/
theorem claim_C5_shrink_is_silently_applied :
    BloomFilter2.resize (BloomFilter2.new 10 [fun n : Nat => n]) 3 =
      some (BloomFilter2.new 3 [fun n : Nat => n]) ∧
    (BloomFilter2.new 3 [fun n : Nat => n]).size <
      (BloomFilter2.new 10 [fun n : Nat => n]).size := by
  constructor
  · show resizeFuel (10 + 2) (BloomFilter2.new 10 [fun n : Nat => n]) 3 = _
    rw [resizeFuel]
    have hitems : (BloomFilter2.new 10 [fun n : Nat => n]).items = [] := rfl
    rw [hitems, replayLoop]
    rfl
  · decide

/-- C6: `should_resize()` is true iff the item count has reached the size,
and on a well-formed state `add(item)` performs the (doubling) resize before
setting the new item's bits and before appending it to the log: the result
has the item's k bit indices set modulo the current — post-resize when the
trigger held — size, the item appended, and the count increased by one. -/
theorem claim_C6_add_resizes_before_insert :
    (∀ (α : Type) (s : BloomFilter2 α),
      s.should_resize = true ↔ s.size ≤ s.items.length)
    ∧ (∀ (α : Type) (s : BloomFilter2 α) (x : α), WF s →
      ∃ s', BloomFilter2.add s x = some s' ∧
        s'.items = s.items ++ [x] ∧
        s'.items.length = s.items.length + 1 ∧
        s'.hash_functions = s.hash_functions ∧
        s'.size = (if s.should_resize then s.calculate_new_size else s.size) ∧
        ∀ hf ∈ s.hash_functions, s'.bit_vector[hf x % s'.size]? = some true) := by
  constructor
  · intro α s
    simp [BloomFilter2.should_resize]
  · intro α s x hWF
    obtain ⟨s', hrun, _, hk, hitems, hsize, hgood⟩ := add2_spec s x hWF
    refine ⟨s', hrun, hitems, by rw [hitems]; simp, hk, hsize, ?_⟩
    intro hf hmem
    exact hgood hf (by rw [hk]; exact hmem)

/-- Witness for C6 on a fresh well-formed filter of size 2 and item 5. -/
theorem claim_C6_add_resizes_before_insert_witness :
    ((BloomFilter2.new 2 [fun n : Nat => n]).should_resize = true ↔
      (BloomFilter2.new 2 [fun n : Nat => n]).size ≤
        (BloomFilter2.new 2 [fun n : Nat => n]).items.length) ∧
    WF (BloomFilter2.new 2 [fun n : Nat => n]) ∧
    (∃ s', BloomFilter2.add (BloomFilter2.new 2 [fun n : Nat => n]) 5 = some s' ∧
      s'.items = (BloomFilter2.new 2 [fun n : Nat => n]).items ++ [5] ∧
      s'.items.length = (BloomFilter2.new 2 [fun n : Nat => n]).items.length + 1 ∧
      s'.hash_functions = (BloomFilter2.new 2 [fun n : Nat => n]).hash_functions ∧
      s'.size = (if (BloomFilter2.new 2 [fun n : Nat => n]).should_resize then
          (BloomFilter2.new 2 [fun n : Nat => n]).calculate_new_size
        else (BloomFilter2.new 2 [fun n : Nat => n]).size) ∧
      ∀ hf ∈ (BloomFilter2.new 2 [fun n : Nat => n]).hash_functions,
        s'.bit_vector[hf 5 % s'.size]? = some true) :=
  ⟨claim_C6_add_resizes_before_insert.1 Nat (BloomFilter2.new 2 [fun n : Nat => n]),
    by decide,
    claim_C6_add_resizes_before_insert.2 Nat
      (BloomFilter2.new 2 [fun n : Nat => n]) 5 (by decide)⟩

/-- C7: on identical shared state (same bits, same size, and the fixed
variant's k seeded-XOR hashes stored as the adaptive variant's function
list), the adaptive `contains` returns exactly the fixed `contains` — and,
on in-spec states, that common answer is `some true` iff all k hashed
indices (hash XOR seed, reduced mod m) are set. -/
theorem claim_C7_contains_agrees_across_variants :
    (∀ (α : Type) (hashOf : α → Nat) (bv : List Bool) (m k : Nat)
        (items0 : List α) (x : α),
      BloomFilter1.contains hashOf ⟨bv, m, k⟩ x =
        BloomFilter2.contains
          ⟨bv, m, (List.range k).map (fun i => fun y => defaultHash hashOf y i),
            items0⟩ x)
    ∧ (∀ (α : Type) (hashOf : α → Nat) (bv : List Bool) (m k : Nat) (x : α),
      1 ≤ m → bv.length = m →
      (BloomFilter1.contains hashOf ⟨bv, m, k⟩ x = some true ↔
        ∀ i < k, bv[defaultHash hashOf x i % m]? = some true)) := by
  constructor
  · intro α hashOf bv m k items0 x
    exact containsLoop_bridge hashOf x bv m k (List.range k)
  · intro α hashOf bv m k x hm hlen
    rw [BloomFilter1.contains]
    rw [containsLoop1_iff hashOf x (List.range k) ⟨bv, m, k⟩ hm hlen]
    constructor
    · intro h i hik
      exact h i (List.mem_range.mpr hik)
    · intro h i hik
      exact h i (List.mem_range.mp hik)

/-- Witness for C7 on bits [true, true], m = 2, k = 1 and item 5. -/
theorem claim_C7_contains_agrees_across_variants_witness :
    (BloomFilter1.contains (fun n : Nat => n) ⟨[true, true], 2, 1⟩ 5 =
      BloomFilter2.contains
        ⟨[true, true], 2,
          (List.range 1).map (fun i => fun y => defaultHash (fun n : Nat => n) y i),
          ([] : List Nat)⟩ 5) ∧
    1 ≤ 2 ∧ ([true, true] : List Bool).length = 2 ∧
    (BloomFilter1.contains (fun n : Nat => n) ⟨[true, true], 2, 1⟩ 5 = some true ↔
      ∀ i < 1, ([true, true] : List Bool)[defaultHash (fun n : Nat => n) 5 i % 2]? =
        some true) :=
  ⟨claim_C7_contains_agrees_across_variants.1 Nat (fun n => n) [true, true] 2 1 [] 5,
    by decide, by decide,
    claim_C7_contains_agrees_across_variants.2 Nat (fun n => n) [true, true] 2 1 5
      (by decide) (by decide)⟩

/-- C8: two filters of the same variant constructed with identical
configuration and receiving the same add sequence answer every subsequent
contains query identically. -/
theorem claim_C8_identical_runs_agree :
    (∀ (α : Type) (hashOf : α → Nat) (m k : Nat) (xs : List α)
        (fA fB : BloomFilter1) (x : α),
      BloomFilter1.addAll hashOf (BloomFilter1.new m k) xs = some fA →
      BloomFilter1.addAll hashOf (BloomFilter1.new m k) xs = some fB →
      BloomFilter1.contains hashOf fA x = BloomFilter1.contains hashOf fB x)
    ∧ (∀ (α : Type) (m : Nat) (hfs : List (α → Nat)) (xs : List α)
        (gA gB : BloomFilter2 α) (x : α),
      BloomFilter2.addAll (BloomFilter2.new m hfs) xs = some gA →
      BloomFilter2.addAll (BloomFilter2.new m hfs) xs = some gB →
      BloomFilter2.contains gA x = BloomFilter2.contains gB x) := by
  constructor
  · intro α hashOf m k xs fA fB x hA hB
    cases Option.some.inj (hA.symm.trans hB)
    rfl
  · intro α m hfs xs gA gB x hA hB
    cases Option.some.inj (hA.symm.trans hB)
    rfl

/-- Witness for C8: the same concrete runs on both sides. -/
theorem claim_C8_identical_runs_agree_witness :
    (BloomFilter1.addAll (fun n : Nat => n) (BloomFilter1.new 2 1) [3] =
      some ⟨[false, true], 2, 1⟩) ∧
    (BloomFilter2.addAll (BloomFilter2.new 2 [fun n : Nat => n]) [] =
      some (BloomFilter2.new 2 [fun n : Nat => n])) ∧
    (BloomFilter1.contains (fun n : Nat => n) ⟨[false, true], 2, 1⟩ 3 =
      BloomFilter1.contains (fun n : Nat => n) ⟨[false, true], 2, 1⟩ 3) ∧
    (BloomFilter2.contains (BloomFilter2.new 2 [fun n : Nat => n]) 3 =
      BloomFilter2.contains (BloomFilter2.new 2 [fun n : Nat => n]) 3) :=
  ⟨by decide, rfl,
    claim_C8_identical_runs_agree.1 Nat (fun n => n) 2 1 [3]
      ⟨[false, true], 2, 1⟩ ⟨[false, true], 2, 1⟩ 3 (by decide) (by decide),
    claim_C8_identical_runs_agree.2 Nat 2 [fun n : Nat => n] []
      (BloomFilter2.new 2 [fun n : Nat => n]) (BloomFilter2.new 2 [fun n : Nat => n])
      3 rfl rfl⟩

/-- The estimator's value in the real-valued model of the `f64` arithmetic:
it is exactly (1 − e^(−kn/m))^k over the current k, n, m, it lies in [0,1]
whenever m ≥ 1, and the call leaves the filter untouched (it only reads the
state: the model consumes `self` and returns no filter). -/
lemma fpr_value_formula {α : Type} (s : BloomFilter2 α) (hm : 1 ≤ s.size) :
    (BloomFilter2.calculate_false_positive_rate s).1 =
      ((1 : ℝ) - Real.exp (-(s.hash_functions.length : ℝ) *
        (s.items.length : ℝ) / (s.size : ℝ))) ^ ((s.hash_functions.length : ℝ)) ∧
    (BloomFilter2.calculate_false_positive_rate s).1 ∈ Set.Icc (0 : ℝ) 1 := by
  refine ⟨rfl, ?_⟩
  have hmpos : (0 : ℝ) < (s.size : ℝ) := by
    exact_mod_cast hm
  have hexp : Real.exp (-(s.hash_functions.length : ℝ) *
      (s.items.length : ℝ) / (s.size : ℝ)) ≤ 1 := by
    rw [Real.exp_le_one_iff]
    apply div_nonpos_of_nonpos_of_nonneg
    · have : (0 : ℝ) ≤ (s.hash_functions.length : ℝ) * (s.items.length : ℝ) := by
        positivity
      linarith
    · positivity
  have hb0 : (0 : ℝ) ≤ 1 - Real.exp (-(s.hash_functions.length : ℝ) *
      (s.items.length : ℝ) / (s.size : ℝ)) := by
    linarith
  have hb1 : 1 - Real.exp (-(s.hash_functions.length : ℝ) *
      (s.items.length : ℝ) / (s.size : ℝ)) ≤ 1 := by
    have := Real.exp_pos (-(s.hash_functions.length : ℝ) *
      (s.items.length : ℝ) / (s.size : ℝ))
    linarith
  constructor
  · exact Real.rpow_nonneg hb0 _
  · exact Real.rpow_le_one hb0 hb1 (by positivity)

/-- C9 (code evaluation at the failing input): the estimator is not
side-effect-free — called on a fresh adaptive filter with k = 3, m = 10000,
n = 0, it performs a print of its (k, n, m) diagnostic line, a nonempty
observable effect. -/
theorem claim_C9_estimator_is_not_effect_free :
    (BloomFilter2.calculate_false_positive_rate
        (BloomFilter2.new 10000
          [fun n : Nat => n, fun n => n + 1, fun n => n + 2])).2 =
      [(3, 0, 10000)] ∧
    ((BloomFilter2.calculate_false_positive_rate
        (BloomFilter2.new 10000
          [fun n : Nat => n, fun n => n + 1, fun n => n + 2])).2 ≠ []) := by
  refine ⟨rfl, ?_⟩
  intro h
  rw [show (BloomFilter2.calculate_false_positive_rate
      (BloomFilter2.new 10000
        [fun n : Nat => n, fun n => n + 1, fun n => n + 2])).2 =
      [(3, 0, 10000)] from rfl] at h
  exact List.cons_ne_nil _ _ h

/-- C10: on any filter of positive size, every bit index computed by add and
contains is the hash reduced modulo m, hence strictly below m, so indexing
never goes out of bounds and the modulo divisor is never zero — add and
contains then always return; with m = 0 the hashing step divides by zero and
add/contains panic, in both variants. -/
theorem claim_C10_indices_in_bounds :
    (∀ (α : Type) (hashOf : α → Nat) (s : BloomFilter1) (x : α) (i : Nat),
        1 ≤ s.size → ∃ idx, s.hash hashOf x i = some idx ∧ idx < s.size)
    ∧ (∀ (α : Type) (s : BloomFilter2 α) (hf : α → Nat) (x : α),
        1 ≤ s.size → hf x % s.size < s.size)
    ∧ (∀ (α : Type) (hashOf : α → Nat) (s : BloomFilter1) (x : α),
        1 ≤ s.size → s.bit_vector.length = s.size →
        (∃ s', BloomFilter1.add hashOf s x = some s') ∧
        (∃ b, BloomFilter1.contains hashOf s x = some b))
    ∧ (∀ (α : Type) (s : BloomFilter2 α) (x : α), WF s →
        (∃ s', BloomFilter2.add s x = some s') ∧
        (∃ b, BloomFilter2.contains s x = some b))
    ∧ (∀ (α : Type) (hashOf : α → Nat) (x : α) (k : Nat), 1 ≤ k →
        BloomFilter1.add hashOf (BloomFilter1.new 0 k) x = none ∧
        BloomFilter1.contains hashOf (BloomFilter1.new 0 k) x = none)
    ∧ (∀ (α : Type) (hf : α → Nat) (rest : List (α → Nat)) (x : α),
        BloomFilter2.add (BloomFilter2.new 0 (hf :: rest)) x = none ∧
        BloomFilter2.contains (BloomFilter2.new 0 (hf :: rest)) x = none) := by
  refine ⟨?_, ?_, ?_, ?_, ?_, ?_⟩
  · intro α hashOf s x i h1
    refine ⟨defaultHash hashOf x i % s.size, ?_, Nat.mod_lt _ (by omega)⟩
    rw [BloomFilter1.hash, if_neg (by omega)]
  · intro α s hf x h1
    exact Nat.mod_lt _ (by omega)
  · intro α hashOf s x h1 h2
    constructor
    · obtain ⟨s', hrun, _⟩ := add1_spec hashOf s x h1 h2
      exact ⟨s', hrun⟩
    · exact containsLoop1_total hashOf x (List.range s.hash_functions) s h1 h2
  · intro α s x hWF
    constructor
    · obtain ⟨s', hrun, _⟩ := add2_spec s x hWF
      exact ⟨s', hrun⟩
    · exact containsLoop2_total x s.hash_functions s.size s.bit_vector
        hWF.1 hWF.2.1
  · intro α hashOf x k hk
    obtain ⟨j, rfl⟩ : ∃ j, k = j + 1 := ⟨k - 1, by omega⟩
    have hrg : List.range ((BloomFilter1.new 0 (j + 1)).hash_functions) =
        0 :: (List.range j).map Nat.succ := by
      show List.range (j + 1) = _
      rw [List.range_succ_eq_map]
    constructor
    · rw [BloomFilter1.add, hrg]
      exact addLoop1_size_zero hashOf x _ 0 _ rfl
    · rw [BloomFilter1.contains, hrg]
      exact containsLoop1_size_zero hashOf x _ 0 _ rfl
  · intro α hf rest x
    refine ⟨add2_size_zero hf rest x, ?_⟩
    show containsLoop 0 (List.replicate 0 false) x (hf :: rest) = none
    rw [containsLoop, if_pos rfl]

/-- Witness for C10 at concrete filters of sizes 2 and 0. -/
theorem claim_C10_indices_in_bounds_witness :
    1 ≤ 2 ∧
    (∃ idx, BloomFilter1.hash ⟨[false, false], 2, 1⟩ (fun n : Nat => n) 9 0 =
      some idx ∧ idx < 2) ∧
    ((fun n : Nat => n) 9 % (BloomFilter2.new 2 [fun n : Nat => n]).size <
      (BloomFilter2.new 2 [fun n : Nat => n]).size) ∧
    WF (BloomFilter2.new 2 [fun n : Nat => n]) ∧
    ((∃ s', BloomFilter2.add (BloomFilter2.new 2 [fun n : Nat => n]) 9 = some s') ∧
      (∃ b, BloomFilter2.contains (BloomFilter2.new 2 [fun n : Nat => n]) 9 = some b)) ∧
    (BloomFilter1.add (fun n : Nat => n) (BloomFilter1.new 0 1) 9 = none ∧
      BloomFilter1.contains (fun n : Nat => n) (BloomFilter1.new 0 1) 9 = none) ∧
    (BloomFilter2.add (BloomFilter2.new 0 [fun n : Nat => n]) 9 = none ∧
      BloomFilter2.contains (BloomFilter2.new 0 [fun n : Nat => n]) 9 = none) :=
  ⟨by decide,
    claim_C10_indices_in_bounds.1 Nat (fun n => n) ⟨[false, false], 2, 1⟩ 9 0 (by decide),
    claim_C10_indices_in_bounds.2.1 Nat (BloomFilter2.new 2 [fun n : Nat => n])
      (fun n => n) 9 (by decide),
    by decide,
    claim_C10_indices_in_bounds.2.2.2.1 Nat (BloomFilter2.new 2 [fun n : Nat => n])
      9 (by decide),
    claim_C10_indices_in_bounds.2.2.2.2.1 Nat (fun n => n) 9 1 (by decide),
    claim_C10_indices_in_bounds.2.2.2.2.2 Nat (fun n => n) [] 9⟩

end BloomDemo
